import Mathlib

/-
  Verification development for scripts/meta_analysis.py.

  The embedding below translates the data model and the operations of the
  script into Lean: MetaDat (one variant record), Study (per-study
  configuration), the per-study lookahead buffer with get_next_data,
  put_back and get_match, the allele equalizer, and the three meta-analysis
  combiners.  Python floats are modelled as rationals; nullable values as
  Option; a Python exception surfaced by a combiner is the explicit
  MetaResult.raises tag.  Chromosomes are modelled as their chrord ordinal
  (a natural number); the raw-row parsing and unsupported-contig filtering
  that happen at ingestion (lines 247 to 282 of the script) are upstream of
  every claim below, so a stream source is a list of already-parsed records.
-/

/-- One variant record, mirroring class MetaDat (lines 85 to 100).
    chr is the chrord ordinal, pos the integer position, beta / pval / se
    the nullable statistics.  The lazily cached z-score field is omitted:
    it is observationally the function of pval modelled in the combiners. -/
structure MetaDat where
  chr : Nat
  pos : Int
  ref : String
  alt : String
  beta : Option Rat
  pval : Option Rat
  se : Option Rat
  extra_cols : List String
deriving DecidableEq

/-- Base complementation table, mirroring the dict flip (line 75).  The
    Python dict raises KeyError on a character outside A, C, G, T; alleles
    are strings over that alphabet, so the totalization on other
    characters is unobservable. -/
def flipc : Char → Char
  | 'A' => 'T'
  | 'T' => 'A'
  | 'C' => 'G'
  | 'G' => 'C'
  | c => c

/-- flip_strand (lines 77 to 78): complement every base, keeping order. -/
def flip_strand (allele : String) : String :=
  String.mk (allele.data.map flipc)

/-- is_symmetric (lines 80 to 81): the palindromic (strand-ambiguous)
    allele pairs A/T and C/G. -/
def is_symmetric (a1 a2 : String) : Bool :=
  decide ((a1 = "A" ∧ a2 = "T") ∨ (a1 = "T" ∧ a2 = "A") ∨
          (a1 = "C" ∧ a2 = "G") ∨ (a1 = "G" ∧ a2 = "C"))

/-- The in-place mutation equalize applies on a swapped-order match
    (lines 121 to 124 and 130 to 133): negate beta when present and swap
    ref with alt. -/
def equalize_swap (self : MetaDat) : MetaDat :=
  { self with beta := self.beta.map (fun b => -1 * b), ref := self.alt, alt := self.ref }

/-- MetaDat.equalize (lines 105 to 136), as a pure function: the first
    component is the returned Python value (none models the implicit None
    returned when control falls off the end of the method, some false the
    literal False, some true True), the second the possibly mutated self.
    The other record is never mutated by the Python code. -/
def equalize (self other : MetaDat) : Option Bool × MetaDat :=
  if self.chr = other.chr ∧ self.pos = other.pos then
    if is_symmetric other.ref other.alt then
      if self.ref = other.ref ∧ self.alt = other.alt then (some true, self)
      else if self.ref = other.alt ∧ self.alt = other.ref then (some true, equalize_swap self)
      else (none, self)
    else if (self.ref = other.ref ∨ self.ref = flip_strand other.ref) ∧
            (self.alt = other.alt ∨ self.alt = flip_strand other.alt) then
      (some true, self)
    else if (self.ref = other.alt ∨ self.ref = flip_strand other.alt) ∧
            (self.alt = other.ref ∨ self.alt = flip_strand other.alt) then
      (some true, equalize_swap self)
    else (some false, self)
  else (none, self)

/-- C3 failing input, the record playing self: chr 1, pos 100, ref C, alt T. -/
def cexSelf3 : MetaDat := ⟨1, 100, "C", "T", some 1, some (1/2), none, []⟩

/-- C3 failing input, the record playing other: chr 1, pos 100, ref A, alt C. -/
def cexOther3 : MetaDat := ⟨1, 100, "A", "C", some 1, some (1/2), none, []⟩

/-- C5 failing input, first record: chr 1, pos 200, ref A, alt C. -/
def cexX5 : MetaDat := ⟨1, 200, "A", "C", some 1, some (1/2), none, []⟩

/-- C5 failing input, second record: chr 1, pos 200, ref C, alt T. -/
def cexY5 : MetaDat := ⟨1, 200, "C", "T", some 1, some (1/2), none, []⟩

/-- C8 witness input, self: the palindromic pair in swapped order. -/
def witSelf8 : MetaDat := ⟨1, 300, "T", "A", some 2, some (1/2), none, []⟩

/-- C8 witness input, other: the palindromic pair A/T. -/
def witOther8 : MetaDat := ⟨1, 300, "A", "T", some 1, some (1/2), none, []⟩

/-- C10 witness input, self: a record on chromosome 1. -/
def witSelf10 : MetaDat := ⟨1, 400, "A", "C", some 1, some (1/2), none, []⟩

/-- C10 witness input, other: same position but on chromosome 2. -/
def witOther10 : MetaDat := ⟨2, 400, "A", "C", some 1, some (1/2), none, []⟩

/-- C3: the script, at a pair the claim requires to match, returns False.
    With other = (A, C) non-palindromic, self.ref = other.alt = C and
    self.alt = T = complement of other.ref = A, the claim says equalize
    succeeds with a swap and a negated effect; line 129 of the script
    instead compares self.alt against the complement of other.alt (a slip
    for the complement of other.ref, the counterpart of line 127), so the
    call returns False and mutates nothing. -/
theorem equalize_flip_swap_bug :
    is_symmetric cexOther3.ref cexOther3.alt = false ∧
    cexSelf3.ref = cexOther3.alt ∧
    cexSelf3.alt = flip_strand cexOther3.ref ∧
    equalize cexSelf3 cexOther3 = (some false, cexSelf3) :=
  ⟨rfl, rfl, rfl, rfl⟩

/-- C5: the match outcome of equalize is not invariant under swapping the
    roles of the two records.  At equal chromosome and position, the pair
    (A, C) versus (C, T) matches when (A, C) plays self but not when
    (C, T) plays self, because of the flipped-allele comparison slip on
    line 129. -/
theorem equalize_asymmetric_bug :
    (equalize cexX5 cexY5).1 = some true ∧ (equalize cexY5 cexX5).1 = some false :=
  ⟨rfl, rfl⟩

/-- C8: for records at equal chromosome and position whose other-side
    alleles form a palindromic pair, equalize never strand-flips: it
    reports a match exactly on an identical or swapped-order allele pair,
    leaves self untouched in the identical case, and in the (non-identical)
    swapped case swaps the alleles of self and negates its effect. -/
theorem equalize_symmetric_no_strand_flip (self other : MetaDat)
    (hc : self.chr = other.chr) (hp : self.pos = other.pos)
    (hs : is_symmetric other.ref other.alt = true) :
    ((equalize self other).1 = some true ↔
      (self.ref = other.ref ∧ self.alt = other.alt) ∨
      (self.ref = other.alt ∧ self.alt = other.ref)) ∧
    ((self.ref = other.ref ∧ self.alt = other.alt) → (equalize self other).2 = self) ∧
    (¬(self.ref = other.ref ∧ self.alt = other.alt) →
      (self.ref = other.alt ∧ self.alt = other.ref) →
      (equalize self other).2 = equalize_swap self) := by
  unfold equalize
  rw [if_pos ⟨hc, hp⟩, hs]
  simp only [if_true]
  split_ifs with h1 h2
  · exact ⟨⟨fun _ => Or.inl h1, fun _ => rfl⟩, fun _ => rfl, fun hn _ => absurd h1 hn⟩
  · exact ⟨⟨fun _ => Or.inr h2, fun _ => rfl⟩, fun hx => absurd hx h1, fun _ _ => rfl⟩
  · refine ⟨⟨fun hx => by simp at hx, fun hx => ?_⟩, fun hx => absurd hx h1,
      fun _ hx => absurd hx h2⟩
    rcases hx with hx | hx
    · exact absurd hx h1
    · exact absurd hx h2

/-- C8 witness: the theorem applied to the concrete palindromic pair A/T
    reported in swapped order T/A at the same position. -/
theorem equalize_symmetric_no_strand_flip_witness :
    ((equalize witSelf8 witOther8).1 = some true ↔
      (witSelf8.ref = witOther8.ref ∧ witSelf8.alt = witOther8.alt) ∨
      (witSelf8.ref = witOther8.alt ∧ witSelf8.alt = witOther8.ref)) ∧
    ((witSelf8.ref = witOther8.ref ∧ witSelf8.alt = witOther8.alt) →
      (equalize witSelf8 witOther8).2 = witSelf8) ∧
    (¬(witSelf8.ref = witOther8.ref ∧ witSelf8.alt = witOther8.alt) →
      (witSelf8.ref = witOther8.alt ∧ witSelf8.alt = witOther8.ref) →
      (equalize witSelf8 witOther8).2 = equalize_swap witSelf8) :=
  equalize_symmetric_no_strand_flip witSelf8 witOther8 rfl rfl rfl

/-- C10: when the chromosomes or positions differ, or when the other-side
    alleles are palindromic and match neither identically nor in swapped
    order, equalize returns the implicit None (not the boolean False) and
    leaves self unchanged (the other record is never written at all). -/
theorem equalize_none_unchanged (self other : MetaDat)
    (h : (self.chr ≠ other.chr ∨ self.pos ≠ other.pos) ∨
      (self.chr = other.chr ∧ self.pos = other.pos ∧
        is_symmetric other.ref other.alt = true ∧
        ¬(self.ref = other.ref ∧ self.alt = other.alt) ∧
        ¬(self.ref = other.alt ∧ self.alt = other.ref))) :
    equalize self other = (none, self) := by
  rcases h with h | ⟨hc, hp, hs, h1, h2⟩
  · have hne : ¬(self.chr = other.chr ∧ self.pos = other.pos) := by tauto
    unfold equalize
    rw [if_neg hne]
  · unfold equalize
    rw [if_pos ⟨hc, hp⟩, hs]
    simp only [if_true]
    rw [if_neg h1, if_neg h2]

/-- C10 witness: the theorem applied to two concrete records that differ
    in chromosome. -/
theorem equalize_none_unchanged_witness :
    equalize witSelf10 witOther10 = (none, witSelf10) :=
  equalize_none_unchanged witSelf10 witOther10 (Or.inl (by decide))

/-- The mutable reader state of one Study (lines 151 to 336): the future
    deque (the lookahead and pushback buffer, left end first) and the
    not-yet-read remainder of the row source.  Each source element is one
    parsed row of a supported contig, in file order. -/
structure StreamState where
  future : List MetaDat
  source : List MetaDat
deriving DecidableEq

/-- The buffered-branch selection of get_next_data (lines 240 to 243): the
    comprehension keeps index 0 and every later index whose record has the
    chromosome and position of the record at the previous index of the
    original deque; kept records are returned, in order, and deleted.
    selFrom prev l splits l into (kept, left behind) given the record prev
    standing right before l in the deque. -/
def selFrom (prev : MetaDat) : List MetaDat → List MetaDat × List MetaDat
  | [] => ([], [])
  | v :: rest =>
    if v.chr = prev.chr ∧ v.pos = prev.pos then
      (v :: (selFrom v rest).1, (selFrom v rest).2)
    else ((selFrom v rest).1, v :: (selFrom v rest).2)

/-- Study.put_back (lines 333 to 336): one appendleft per record, walking
    the list left to right. -/
def put_back (metadat : List MetaDat) (s : StreamState) : StreamState :=
  { s with future := metadat.foldl (fun acc m => m :: acc) s.future }

/-- Number of records a readVars holdover contributes to the buffer. -/
def holdCount : Option MetaDat → Nat
  | none => 0
  | some _ => 1

/-- The raw-reading loop of get_next_data (lines 245 to 292) on an empty
    buffer: accumulate rows of one (chr, pos) into vars; a row at a new
    position is the holdover appended to the buffer; just_one stops after
    the first accepted row.  When the source ends the code returns None
    unconditionally, even if vars already holds records (line 252 to 253),
    so the accumulated vars are discarded. -/
def readVars (justOne : Bool) (vars : List MetaDat) : List MetaDat → Option (List MetaDat × Option MetaDat × List MetaDat)
  | [] => none
  | v :: rest =>
    match vars with
    | [] => if justOne then some ([v], none, rest) else readVars justOne [v] rest
    | v0 :: _ =>
      if v0.chr = v.chr ∧ v0.pos = v.pos then
        (if justOne then some (vars ++ [v], none, rest) else readVars justOne (vars ++ [v]) rest)
      else some (vars, some v, rest)

/-- Study.get_next_data (lines 231 to 292).  Returns the batch (none for
    the Python None at end of input) and the new state.  With a non-empty
    buffer the just_one argument is not consulted, exactly as in the code. -/
def get_next_data (s : StreamState) (justOne : Bool) : Option (List MetaDat) × StreamState :=
  match s.future with
  | v :: rest => (some (v :: (selFrom v rest).1), { s with future := (selFrom v rest).2 })
  | [] =>
    match readVars justOne [] s.source with
    | none => (none, { s with source := [] })
    | some (vs, none, rest) => (some vs, { s with source := rest })
    | some (vs, some hold, rest) => (some vs, { future := [hold], source := rest })

/-- The candidate scan of get_match (lines 322 to 326): first record of
    the batch that equalize accepts against the target is removed and
    returned in its normalized form; records tested before it are
    unchanged, since equalize mutates only on success. -/
def scanMatch (t : MetaDat) : List MetaDat → Option (MetaDat × List MetaDat)
  | [] => none
  | v :: rest =>
    if (equalize v t).1 = some true then some ((equalize v t).2, rest)
    else
      match scanMatch t rest with
      | some (m, rem) => some (m, v :: rem)
      | none => none

theorem selFrom_length (l : List MetaDat) : ∀ (prev : MetaDat),
    (selFrom prev l).1.length + (selFrom prev l).2.length = l.length := by
  induction l with
  | nil => intro prev; rfl
  | cons v rest ih =>
    intro prev
    by_cases h : v.chr = prev.chr ∧ v.pos = prev.pos
    · simp only [selFrom, if_pos h, List.length_cons]
      have := ih v
      omega
    · simp only [selFrom, if_neg h, List.length_cons]
      have := ih v
      omega

theorem readVars_measure (justOne : Bool) (src : List MetaDat) :
    ∀ (vars vs : List MetaDat) (hv : Option MetaDat) (rest : List MetaDat),
      readVars justOne vars src = some (vs, hv, rest) →
      holdCount hv + rest.length < vars.length + src.length := by
  induction src with
  | nil => intro vars vs hv rest h; simp [readVars] at h
  | cons v srest ih =>
    intro vars vs hv rest h
    cases vars with
    | nil =>
      cases justOne with
      | true =>
        simp only [readVars, if_true, Option.some.injEq, Prod.mk.injEq] at h
        obtain ⟨rfl, rfl, rfl⟩ := h
        simp [holdCount]
      | false =>
        simp only [readVars, Bool.false_eq_true, if_false] at h
        have hrec := ih [v] vs hv rest h
        simp only [List.length_cons, List.length_nil] at hrec ⊢
        omega
    | cons v0 vtl =>
      simp only [readVars] at h
      split at h
      · cases justOne with
        | true =>
          simp only [if_true, Option.some.injEq, Prod.mk.injEq] at h
          obtain ⟨rfl, rfl, rfl⟩ := h
          simp only [holdCount, List.length_append, List.length_cons, List.length_nil]
          omega
        | false =>
          simp only [Bool.false_eq_true, if_false] at h
          have hrec := ih ((v0 :: vtl) ++ [v]) vs hv rest h
          simp only [List.length_append, List.length_cons, List.length_nil] at hrec ⊢
          omega
      · simp only [Option.some.injEq, Prod.mk.injEq] at h
        obtain ⟨rfl, rfl, rfl⟩ := h
        simp only [holdCount, List.length_cons]
        omega

theorem get_next_data_measure (s : StreamState) (b : Bool) (batch : List MetaDat)
    (s1 : StreamState) (h : get_next_data s b = (some batch, s1)) :
    s1.future.length + s1.source.length < s.future.length + s.source.length := by
  obtain ⟨fut, src⟩ := s
  cases fut with
  | cons v rest =>
    simp only [get_next_data, Prod.mk.injEq, Option.some.injEq] at h
    obtain ⟨-, rfl⟩ := h
    simp only [List.length_cons]
    have := selFrom_length rest v
    omega
  | nil =>
    simp only [get_next_data] at h
    split at h
    · simp at h
    · rename_i vs rest heq
      simp only [Prod.mk.injEq, Option.some.injEq] at h
      obtain ⟨-, rfl⟩ := h
      have := readVars_measure b src [] vs none rest heq
      simp only [holdCount, List.length_nil] at this ⊢
      omega
    · rename_i vs hold rest heq
      simp only [Prod.mk.injEq, Option.some.injEq] at h
      obtain ⟨-, rfl⟩ := h
      have := readVars_measure b src [] vs (some hold) _ heq
      simp only [holdCount, List.length_nil, List.length_cons] at this ⊢
      omega

/-- Study.get_match (lines 298 to 330): pull batches, discarding every
    batch whose first record sorts strictly before the target; at end of
    input report no match; push a batch sorting after the target back and
    report no match; at the target position scan for an equalize match,
    returning the normalized record and pushing the remainder back, or
    pushing everything back when nothing equalizes.  The empty-batch arm
    mirrors the len(otherdats) == 0 guard of line 309 and is never taken,
    since get_next_data only returns None or a non-empty batch. -/
def get_match (t : MetaDat) (s : StreamState) : Option MetaDat × StreamState :=
  match hg : get_next_data s false with
  | (none, s1) => (none, s1)
  | (some [], s1) => (none, s1)
  | (some (b :: bs), s1) =>
    if b.chr < t.chr ∨ (b.chr = t.chr ∧ b.pos < t.pos) then
      get_match t s1
    else if t.chr < b.chr ∨ t.pos < b.pos then
      (none, put_back (b :: bs) s1)
    else
      match scanMatch t (b :: bs) with
      | some (m, remaining) => (some m, put_back remaining s1)
      | none => (none, put_back (b :: bs) s1)
termination_by s.future.length + s.source.length
decreasing_by
  exact get_next_data_measure s false (b :: bs) s1 hg

/-- C1 failing input, the only record of the stream source: chr 1, pos 9. -/
def cexRead1 : MetaDat := ⟨1, 9, "A", "C", some 1, some 1, some 1, []⟩

/-- C1 failing input, the get_match target: same position and alleles. -/
def cexTarget1 : MetaDat := ⟨1, 9, "A", "C", some 2, some 1, some 1, []⟩

/-- C2 inputs: two distinct records sharing chromosome 1, position 5. -/
def cexA2 : MetaDat := ⟨1, 5, "A", "C", some 1, some 1, none, []⟩

/-- C2 inputs, the second record at the shared position. -/
def cexB2 : MetaDat := ⟨1, 5, "G", "T", some 1, some 1, none, []⟩

/-- C9 inputs: two distinct buffered records sharing chromosome 1, position 7. -/
def cexA9 : MetaDat := ⟨1, 7, "A", "C", some 1, some 1, none, []⟩

/-- C9 inputs, the second buffered record at the shared position. -/
def cexB9 : MetaDat := ⟨1, 7, "G", "T", some 1, some 1, none, []⟩

/-- C1: a record read from the source is silently dropped.  The stream
    holds exactly one record, at the same position as the target and with
    identical alleles, so it equalizes with the target; yet get_match
    reports no match and the post state holds the record neither in the
    buffer nor in the source.  The cause: the reading loop of
    get_next_data returns None at end of input even when vars already
    holds accumulated records (lines 252 to 253), so the last position
    group of every stream is discarded, neither matched nor recoverable. -/
theorem get_match_drops_last_group :
    (equalize cexRead1 cexTarget1).1 = some true ∧
    get_match cexTarget1 ⟨[], [cexRead1]⟩ = (none, ⟨[], []⟩) := by
  constructor
  · rfl
  · unfold get_match
    rfl

/-- C9: with a non-empty buffer, get_next_data does not consult just_one.
    A buffer holding two distinct records at one position is returned
    whole even with just_one set, where the claim (and the docstring of
    get_next_data) promises only the first buffered record. -/
theorem get_next_data_ignores_just_one :
    get_next_data ⟨[cexA9, cexB9], []⟩ true = (some [cexA9, cexB9], ⟨[], []⟩) ∧
    cexA9 ≠ cexB9 := by
  constructor
  · rfl
  · intro h
    exact absurd (congrArg MetaDat.ref h) (by decide)

theorem foldl_cons_eq (xs : List MetaDat) : ∀ acc : List MetaDat,
    xs.foldl (fun a m => m :: a) acc = xs.reverse ++ acc := by
  induction xs with
  | nil => intro acc; simp
  | cons x xs ih =>
    intro acc
    simp only [List.foldl_cons, ih, List.reverse_cons, List.append_assoc,
      List.singleton_append]

theorem selFrom_same (c : Nat) (p : Int) (l : List MetaDat) : ∀ prev : MetaDat,
    prev.chr = c → prev.pos = p → (∀ x ∈ l, x.chr = c ∧ x.pos = p) →
    selFrom prev l = (l, []) := by
  induction l with
  | nil => intro prev _ _ _; rfl
  | cons v rest ih =>
    intro prev hc hp hall
    have hv := hall v (List.mem_cons_self v rest)
    have hrest : ∀ x ∈ rest, x.chr = c ∧ x.pos = p :=
      fun x hx => hall x (List.mem_cons_of_mem v hx)
    have hcond : v.chr = prev.chr ∧ v.pos = prev.pos :=
      ⟨hv.1.trans hc.symm, hv.2.trans hp.symm⟩
    simp only [selFrom, if_pos hcond, ih v hv.1 hv.2 hrest]

/-- C2 counterexample: pushing back the pair in its read order A2, B2 and
    reading again yields the pair reversed, not the original order, so the
    pushback does not restore the buffer as if the records had never been
    removed. -/
theorem put_back_order_cex :
    (get_next_data (put_back [cexA2, cexB2] ⟨[], []⟩) false).1 = some [cexB2, cexA2] ∧
    (get_next_data (put_back [cexA2, cexB2] ⟨[], []⟩) false).1 ≠ some [cexA2, cexB2] := by
  refine ⟨rfl, ?_⟩
  intro h
  have h0 : (get_next_data (put_back [cexA2, cexB2] ⟨[], []⟩) false).1
      = some [cexB2, cexA2] := rfl
  rw [h0] at h
  injection h with h
  injection h with h1 h2
  exact absurd (congrArg MetaDat.ref h1) (by decide)

/-- C2 (amended): put_back reinserts the records at the front of the
    buffer in reversed relative order, because the loop of lines 334 to
    336 calls appendleft once per record walking left to right; a
    subsequent get_next_data over a pushed-back group sharing one
    position (the only shape get_match ever pushes back) returns the same
    records, but reversed. -/
theorem put_back_reverses_then_returns (xs : List MetaDat) (s : StreamState)
    (c : Nat) (p : Int) (hne : xs ≠ []) (hall : ∀ x ∈ xs, x.chr = c ∧ x.pos = p)
    (hfut : s.future = []) :
    (put_back xs s).future = xs.reverse ∧
    get_next_data (put_back xs s) false = (some xs.reverse, ⟨[], s.source⟩) := by
  obtain ⟨fut, src⟩ := s
  simp only at hfut
  subst hfut
  have hstate : put_back xs ⟨[], src⟩ = ⟨xs.reverse, src⟩ := by
    simp only [put_back, foldl_cons_eq, List.append_nil]
  refine ⟨by rw [hstate], ?_⟩
  have hrev : ∀ x ∈ xs.reverse, x.chr = c ∧ x.pos = p :=
    fun x hx => hall x (List.mem_reverse.mp hx)
  cases hxr : xs.reverse with
  | nil => exact absurd (List.reverse_eq_nil_iff.mp hxr) hne
  | cons v rest =>
    have hv : v.chr = c ∧ v.pos = p := hrev v (hxr ▸ List.mem_cons_self v rest)
    have hrest : ∀ x ∈ rest, x.chr = c ∧ x.pos = p :=
      fun x hx => hrev x (hxr ▸ List.mem_cons_of_mem v hx)
    have hsel := selFrom_same c p rest v hv.1 hv.2 hrest
    rw [hstate, hxr]
    simp only [get_next_data, hsel]

/-- C2 witness: the amended theorem applied to the concrete same-position
    pair A2, B2 pushed back onto an empty buffer. -/
theorem put_back_reverses_then_returns_witness :
    (put_back [cexA2, cexB2] (⟨[], []⟩ : StreamState)).future = [cexB2, cexA2] ∧
    get_next_data (put_back [cexA2, cexB2] ⟨[], []⟩) false
      = (some [cexB2, cexA2], ⟨[], []⟩) :=
  put_back_reverses_then_returns [cexA2, cexB2] ⟨[], []⟩ 1 5 (by simp)
    (by
      intro x hx
      simp only [List.mem_cons, List.not_mem_nil, or_false] at hx
      rcases hx with rfl | rfl <;> exact ⟨rfl, rfl⟩)
    rfl

/-- Study configuration (lines 151 to 229), reduced to what the combiners
    and the effective-size computation read: the display name and the two
    configured counts.  Counts are rationals because the effective size is
    produced by true division. -/
structure Study where
  name : String
  conf_n_cases : Rat
  conf_n_controls : Rat
deriving DecidableEq

/-- The n_cases accessor (lines 211 to 213). -/
def Study.n_cases (s : Study) : Rat := s.conf_n_cases

/-- The n_controls accessor (lines 215 to 217).  The script returns the
    configured case count here, not the configured control count; the
    embedding reproduces that literally. -/
def Study.n_controls (s : Study) : Rat := s.conf_n_cases

/-- Study.effective_size (lines 219 to 223): 4 times cases times controls
    over their sum, through the two accessors above.  The memoization in
    the script caches a pure value, so it is dropped. -/
def Study.effective_size (s : Study) : Rat :=
  4 * s.n_cases * s.n_controls / (s.n_cases + s.n_controls)

/-- Outcome of one combiner call.  ok num tot stands for the Python return
    value scipy.stats.norm.sf of (the absolute value of num divided by the
    square root of tot), num and tot being the exactly representable sums
    the loop accumulates; unavailable is the explicit None return; raises
    is an uncaught Python exception (numpy.sign or chi2.isf applied to
    None, math.sqrt of a negative, or a division by zero). -/
inductive MetaResult where
  | raises : MetaResult
  | unavailable : MetaResult
  | ok : Rat → Rat → MetaResult
deriving DecidableEq

/-- numpy.sign on a real argument. -/
def npsign (b : Rat) : Rat := if 0 < b then 1 else if b < 0 then -1 else 0

/-- The loop of n_meta (lines 21 to 30).  sq stands for math.sqrt and z
    for the unsigned z-score map p to sqrt of chi2.isf(p, 1) of
    MetaDat.z_score (lines 138 to 145); both are irrational-valued, so
    they are abstract parameters of the embedding.  A record without
    effect or p-value raises (numpy.sign(None) and chi2.isf(None) are
    TypeErrors); a negative effective size raises in math.sqrt; a zero
    total raises in the final division. -/
def n_meta_run (sq z : Rat → Rat) : List (Study × MetaDat) → Rat → Rat → MetaResult
  | [], num, tot => if tot = 0 then MetaResult.raises else MetaResult.ok num tot
  | sd :: rest, num, tot =>
    match sd.2.beta, sd.2.pval with
    | some b, some p =>
      if sd.1.effective_size < 0 then MetaResult.raises
      else n_meta_run sq z rest (num + sq sd.1.effective_size * npsign b * z p)
        (tot + sd.1.effective_size)
    | _, _ => MetaResult.raises

/-- n_meta (lines 21 to 30): run the loop from empty accumulators. -/
def n_meta (sq z : Rat → Rat) (studies : List (Study × MetaDat)) : MetaResult :=
  n_meta_run sq z studies 0 0

/-- The loop of inv_var_meta (lines 32 to 48).  A missing or zero standard
    error breaks out of the loop and the length comparison on line 48 then
    yields the explicit None (unavailable).  Otherwise the term appended
    for a pair is var times beta with var = se squared (line 43 and 46),
    and the weight total accumulates 1 over var; a missing beta raises in
    the multiplication; a zero weight total (empty input) raises in the
    final division. -/
def inv_var_run : List (Study × MetaDat) → Rat → Rat → MetaResult
  | [], num, tot => if tot = 0 then MetaResult.raises else MetaResult.ok num tot
  | sd :: rest, num, tot =>
    match sd.2.se with
    | none => MetaResult.unavailable
    | some se =>
      if se = 0 then MetaResult.unavailable
      else
        match sd.2.beta with
        | none => MetaResult.raises
        | some b => inv_var_run rest (num + se * se * b) (tot + 1 / (se * se))

/-- inv_var_meta (lines 32 to 48): run the loop from empty accumulators. -/
def inv_var_meta (studies : List (Study × MetaDat)) : MetaResult :=
  inv_var_run studies 0 0

/-- The loop of variance_weight_meta (lines 50 to 64), with the same
    break-to-unavailable on a missing or zero standard error; the term for
    a pair is (1 over se) times sign(beta) times the z-score, so a missing
    beta or p-value raises. -/
def variance_weight_run (z : Rat → Rat) : List (Study × MetaDat) → Rat → Rat → MetaResult
  | [], num, tot => if tot = 0 then MetaResult.raises else MetaResult.ok num tot
  | sd :: rest, num, tot =>
    match sd.2.se with
    | none => MetaResult.unavailable
    | some se =>
      if se = 0 then MetaResult.unavailable
      else
        match sd.2.beta, sd.2.pval with
        | some b, some p =>
          variance_weight_run z rest (num + 1 / se * npsign b * z p) (tot + 1 / (se * se))
        | _, _ => MetaResult.raises

/-- variance_weight_meta (lines 50 to 64): run from empty accumulators. -/
def variance_weight_meta (z : Rat → Rat) (studies : List (Study × MetaDat)) : MetaResult :=
  variance_weight_run z studies 0 0

/-- C4 failing input, the study of the single matched pair. -/
def cexStudy4 : Study := ⟨"s4", 100, 100⟩

/-- C4 failing input, the record: beta 1 and standard error 2. -/
def cexDat4 : MetaDat := ⟨1, 500, "A", "C", some 1, some 1, some 2, []⟩

/-- C6 failing input, the study of the single matched pair. -/
def cexStudy6 : Study := ⟨"s6", 100, 100⟩

/-- C6 failing input: a record whose effect and p-value failed to parse
    (both None, as lines 269 to 274 produce), standard error present. -/
def cexDat6 : MetaDat := ⟨1, 600, "A", "C", none, none, some 1, []⟩

/-- C6 witness input, the study. -/
def witStudy6 : Study := ⟨"w6", 100, 100⟩

/-- C6 witness input: a fully usable record. -/
def witDat6 : MetaDat := ⟨1, 700, "A", "C", some 1, some 1, some 1, []⟩

/-- C7 witness input: a study with 50 cases and 75 controls configured. -/
def witStudy7 : Study := ⟨"w7", 50, 75⟩

/-- C4: the inverse-variance numerator the script accumulates is beta
    times the squared standard error, not beta divided by it.  On a single
    pair with beta 1 and standard error 2 the loop yields the numerator 4
    with weight total 1/4, where the claim requires the numerator
    beta / se squared = 1/4: line 46 multiplies dat.beta by var instead of
    dividing, inconsistently with the 1/var weight total of line 45. -/
theorem inv_var_meta_numerator_bug :
    inv_var_meta [(cexStudy4, cexDat4)] = MetaResult.ok 4 (1 / 4) ∧
    (4 : Rat) ≠ 1 / (2 * 2) := by
  constructor
  · norm_num [inv_var_meta, inv_var_run, cexDat4]
  · norm_num

/-- C6 counterexample: the sample-size combiner raises on a matched pair
    whose record lacks a usable p-value and effect, instead of returning a
    combined value or an explicit unavailable signal. -/
theorem n_meta_raises_cex :
    n_meta id id [(cexStudy6, cexDat6)] = MetaResult.raises := rfl

theorem n_meta_run_no_raise (sq z : Rat → Rat) (l : List (Study × MetaDat)) :
    ∀ num tot : Rat,
      (∀ sd ∈ l, sd.2.beta ≠ none ∧ sd.2.pval ≠ none ∧ 0 < sd.1.effective_size) →
      0 ≤ tot → (l ≠ [] ∨ 0 < tot) →
      n_meta_run sq z l num tot ≠ MetaResult.raises := by
  induction l with
  | nil =>
    intro num tot _ htot hcase
    have hpos : 0 < tot := by
      rcases hcase with h | h
      · exact absurd rfl h
      · exact h
    simp [n_meta_run, ne_of_gt hpos]
  | cons sd rest ih =>
    intro num tot hval htot _
    obtain ⟨hb, hp, heff⟩ := hval sd (List.mem_cons_self sd rest)
    rcases hbe : sd.2.beta with _ | b
    · exact absurd hbe hb
    rcases hpe : sd.2.pval with _ | p
    · exact absurd hpe hp
    simp only [n_meta_run, hbe, hpe, if_neg (not_lt.mpr (le_of_lt heff))]
    exact ih _ _ (fun x hx => hval x (List.mem_cons_of_mem sd hx))
      (add_nonneg htot (le_of_lt heff))
      (Or.inr (add_pos_of_nonneg_of_pos htot heff))

theorem inv_var_run_no_raise (l : List (Study × MetaDat)) :
    ∀ num tot : Rat, (∀ sd ∈ l, sd.2.beta ≠ none) →
      0 ≤ tot → (l ≠ [] ∨ 0 < tot) →
      inv_var_run l num tot ≠ MetaResult.raises := by
  induction l with
  | nil =>
    intro num tot _ htot hcase
    have hpos : 0 < tot := by
      rcases hcase with h | h
      · exact absurd rfl h
      · exact h
    simp [inv_var_run, ne_of_gt hpos]
  | cons sd rest ih =>
    intro num tot hval htot _
    have hb := hval sd (List.mem_cons_self sd rest)
    rcases hse : sd.2.se with _ | se
    · simp [inv_var_run, hse]
    rcases hbe : sd.2.beta with _ | b
    · exact absurd hbe hb
    by_cases hz : se = 0
    · simp [inv_var_run, hse, hz]
    have hss : 0 < se * se := mul_self_pos.mpr hz
    have hinv : 0 < 1 / (se * se) := by positivity
    simp only [inv_var_run, hse, hbe, if_neg hz]
    exact ih _ _ (fun x hx => hval x (List.mem_cons_of_mem sd hx))
      (add_nonneg htot (le_of_lt hinv))
      (Or.inr (add_pos_of_nonneg_of_pos htot hinv))

theorem variance_weight_run_no_raise (z : Rat → Rat) (l : List (Study × MetaDat)) :
    ∀ num tot : Rat, (∀ sd ∈ l, sd.2.beta ≠ none ∧ sd.2.pval ≠ none) →
      0 ≤ tot → (l ≠ [] ∨ 0 < tot) →
      variance_weight_run z l num tot ≠ MetaResult.raises := by
  induction l with
  | nil =>
    intro num tot _ htot hcase
    have hpos : 0 < tot := by
      rcases hcase with h | h
      · exact absurd rfl h
      · exact h
    simp [variance_weight_run, ne_of_gt hpos]
  | cons sd rest ih =>
    intro num tot hval htot _
    obtain ⟨hb, hp⟩ := hval sd (List.mem_cons_self sd rest)
    rcases hse : sd.2.se with _ | se
    · simp [variance_weight_run, hse]
    rcases hbe : sd.2.beta with _ | b
    · exact absurd hbe hb
    rcases hpe : sd.2.pval with _ | p
    · exact absurd hpe hp
    by_cases hz : se = 0
    · simp [variance_weight_run, hse, hz]
    have hss : 0 < se * se := mul_self_pos.mpr hz
    have hinv : 0 < 1 / (se * se) := by positivity
    simp only [variance_weight_run, hse, hbe, hpe, if_neg hz]
    exact ih _ _ (fun x hx => hval x (List.mem_cons_of_mem sd hx))
      (add_nonneg htot (le_of_lt hinv))
      (Or.inr (add_pos_of_nonneg_of_pos htot hinv))

/-- C6 (amended): on a non-empty list of matched pairs in which every
    record carries a usable effect and p-value and every effective size is
    positive, each of the three combiners returns either a combined value
    or the explicit unavailable signal, never an exception; in particular
    the variance-based combiners still degrade to unavailable, not a
    crash, when a standard error is missing or zero.  Without the usable
    effect and p-value premise the original claim is false: a missing
    p-value or effect makes the sample-size combiner raise (see the
    counterexample), and a missing effect with a valid standard error
    makes the variance-based combiners raise. -/
theorem combiners_no_raise (sq z : Rat → Rat) (l : List (Study × MetaDat))
    (hne : l ≠ [])
    (hval : ∀ sd ∈ l, sd.2.beta ≠ none ∧ sd.2.pval ≠ none ∧ 0 < sd.1.effective_size) :
    n_meta sq z l ≠ MetaResult.raises ∧
    inv_var_meta l ≠ MetaResult.raises ∧
    variance_weight_meta z l ≠ MetaResult.raises :=
  ⟨n_meta_run_no_raise sq z l 0 0 hval le_rfl (Or.inl hne),
   inv_var_run_no_raise l 0 0 (fun sd h => (hval sd h).1) le_rfl (Or.inl hne),
   variance_weight_run_no_raise z l 0 0 (fun sd h => ⟨(hval sd h).1, (hval sd h).2.1⟩)
     le_rfl (Or.inl hne)⟩

/-- C6 witness: the amended theorem applied to a single fully usable
    matched pair. -/
theorem combiners_no_raise_witness :
    n_meta id id [(witStudy6, witDat6)] ≠ MetaResult.raises ∧
    inv_var_meta [(witStudy6, witDat6)] ≠ MetaResult.raises ∧
    variance_weight_meta id [(witStudy6, witDat6)] ≠ MetaResult.raises :=
  combiners_no_raise id id [(witStudy6, witDat6)] (by simp)
    (by
      intro sd hsd
      simp only [List.mem_singleton] at hsd
      subst hsd
      refine ⟨by simp [witDat6], by simp [witDat6], ?_⟩
      show (0 : Rat) < 4 * 100 * 100 / (100 + 100)
      norm_num)

/-- C7 counterexample: with 1 case and 3 controls configured, the script
    computes effective size 2, not the value 3 the formula of the claim
    yields, because the n_controls accessor returns the case count. -/
theorem effective_size_cex :
    (Study.mk "s7" 1 3).effective_size = 2 ∧
    4 * (1 : Rat) * 3 / (1 + 3) = 3 ∧ (2 : Rat) ≠ 3 := by
  refine ⟨?_, by norm_num, by norm_num⟩
  show 4 * (1 : Rat) * 1 / (1 + 1) = 2
  norm_num

/-- C7 (amended): because the n_controls accessor returns the configured
    case count (line 217), the effective size the script uses equals
    4 times cases times cases over (cases plus cases), that is exactly
    twice the configured case count, whatever control count is
    configured. -/
theorem effective_size_uses_cases_twice (s : Study) (h : 0 < s.conf_n_cases) :
    s.effective_size = 2 * s.conf_n_cases := by
  have hne : s.conf_n_cases + s.conf_n_cases ≠ 0 := by positivity
  simp only [Study.effective_size, Study.n_cases, Study.n_controls]
  field_simp
  ring

/-- C7 witness: the amended theorem applied to the study with 50 cases
    and 75 controls configured; its effective size is 100. -/
theorem effective_size_uses_cases_twice_witness :
    (0 : Rat) < 50 ∧ witStudy7.effective_size = 2 * witStudy7.conf_n_cases :=
  ⟨by norm_num, effective_size_uses_cases_twice witStudy7 (by show (0 : Rat) < 50; norm_num)⟩
